import Mathlib

/-!
A shallow embedding of the in-process infrastructure primitives of the
repository: the LRU cache (createLRUCache in src/cache/LRUCache.ts), the
bounded-concurrency priority queue (createAsyncQueue) and the dual-window
rate limiter (createBurstRateLimiter), together with theorems settling
the stated claims about them.

Modelling conventions: times are natural or integer numbers of
milliseconds and every function that reads the clock takes the current
time as an explicit argument; a JavaScript Map is an association list
holding at most one binding per key; stateful functions take the
component state and return the updated state alongside their result.
-/

namespace Cache

/-- The CacheEntry record (data, expiresAt, lastAccessed, size). -/
structure Entry (T : Type) where
  data : T
  expiresAt : Nat
  lastAccessed : Nat
  size : Nat
deriving DecidableEq, Repr

/-- The CacheStats record kept by createLRUCache.  totalSizeBytes is an
integer because the code subtracts entry sizes from it and nothing in the
code forces the running value to stay non-negative. -/
structure Stats where
  hits : Nat
  misses : Nat
  size : Nat
  totalSizeBytes : Int
  averageResponseTime : Int
  evictions : Nat
  staleEntriesCleaned : Nat
deriving DecidableEq, Repr

/-- The CacheOptions record: maxSize, ttl, cleanupInterval. -/
structure Config where
  maxSize : Nat
  ttl : Nat
  cleanupInterval : Nat
deriving DecidableEq, Repr

/-- The mutable closure state of createLRUCache: the cache Map, the
accessOrder array (most recently used first), the stats record, and the
two shadowed accumulators totalResponseTime / totalRequests that
updateStats writes. -/
structure State (T : Type) where
  cache : List (String × Entry T)
  accessOrder : List String
  stats : Stats
  totalResponseTime : Nat
  totalRequests : Nat
deriving DecidableEq, Repr

def initStats : Stats :=
  { hits := 0, misses := 0, size := 0, totalSizeBytes := 0,
    averageResponseTime := 0, evictions := 0, staleEntriesCleaned := 0 }

def initState (T : Type) : State T :=
  { cache := [], accessOrder := [], stats := initStats,
    totalResponseTime := 0, totalRequests := 0 }

/-- Map.get on the association list. -/
def mapGet (m : List (String × Entry T)) (k : String) : Option (Entry T) :=
  (m.find? (fun p => p.1 == k)).map Prod.snd

/-- Map.has. -/
def mapHas (m : List (String × Entry T)) (k : String) : Bool :=
  (m.find? (fun p => p.1 == k)).isSome

/-- Map.set: overwrites the binding in place when the key is present,
otherwise appends the new binding (JavaScript Map insertion order). -/
def mapSet (m : List (String × Entry T)) (k : String) (v : Entry T) :
    List (String × Entry T) :=
  if mapHas m k then m.map (fun p => if p.1 == k then (k, v) else p)
  else m ++ [(k, v)]

/-- Map.delete: a JavaScript Map holds at most one binding per key, so
removing every binding for the key is the same operation. -/
def mapDelete (m : List (String × Entry T)) (k : String) :
    List (String × Entry T) :=
  m.filter (fun p => p.1 != k)

/-- removeFromAccessOrder: indexOf followed by splice removes the first
occurrence of the key, a no-op when the key is absent. -/
def removeFromAccessOrder (order : List String) (k : String) : List String :=
  order.erase k

/-- updateAccessOrder: removeFromAccessOrder then unshift to the front. -/
def updateAccessOrder (order : List String) (k : String) : List String :=
  k :: removeFromAccessOrder order k

/-- deleteEntry: when the key is live, subtracts its size from
totalSizeBytes, removes it from the access order and the cache, and
refreshes stats.size. -/
def deleteEntry (s : State T) (k : String) : State T × Bool :=
  match mapGet s.cache k with
  | some entry =>
    let cache' := mapDelete s.cache k
    ({ s with
        cache := cache'
        accessOrder := removeFromAccessOrder s.accessOrder k
        stats := { s.stats with
            totalSizeBytes := s.stats.totalSizeBytes - (entry.size : Int)
            size := cache'.length } }, true)
  | none => (s, false)

/-- evictLRU: pops the key at the back of accessOrder (the least recently
used) and deletes its entry, counting one eviction. -/
def evictLRU (s : State T) : State T :=
  match s.accessOrder.getLast? with
  | none => s
  | some lruKey =>
    let order' := s.accessOrder.dropLast
    match mapGet s.cache lruKey with
    | some entry =>
      let cache' := mapDelete s.cache lruKey
      { s with
          cache := cache'
          accessOrder := order'
          stats := { s.stats with
              totalSizeBytes := s.stats.totalSizeBytes - (entry.size : Int)
              evictions := s.stats.evictions + 1
              size := cache'.length } }
    | none => { s with accessOrder := order' }

/-- updateStats: accumulates into the closure-level totalResponseTime and
totalRequests variables (which shadow the stats record). -/
def updateStats (s : State T) (responseTime : Nat) : State T :=
  { s with
      totalResponseTime := s.totalResponseTime + responseTime
      totalRequests := s.totalRequests + 1 }

/-- get: absent key is a miss; an entry past its expiresAt is deleted and
counted as a miss; a live entry moves to the front of the access order,
has lastAccessed refreshed, and counts as a hit. -/
def get (s : State T) (k : String) (now : Nat) : State T × Option T :=
  match mapGet s.cache k with
  | none =>
    ({ s with stats := { s.stats with misses := s.stats.misses + 1 } }, none)
  | some entry =>
    if entry.expiresAt < now then
      let s' := (deleteEntry s k).1
      ({ s' with stats := { s'.stats with misses := s'.stats.misses + 1 } },
        none)
    else
      let entry' := { entry with lastAccessed := now }
      ({ s with
          cache := mapSet s.cache k entry'
          accessOrder := updateAccessOrder s.accessOrder k
          stats := { s.stats with hits := s.stats.hits + 1 } },
        some entry.data)

/-- The JavaScript `x || d` fallback on an optional numeric argument:
undefined or 0 falls back to the default. -/
def jsOr (x : Option Nat) (d : Nat) : Nat :=
  match x with
  | some v => if v = 0 then d else v
  | none => d

/-- set: computes the effective ttl and size, evicts the LRU entry when a
new key arrives at capacity, inserts or overwrites the entry, moves the
key to the front of the access order and updates the byte counter.  The
update branch reads the old entry from the map only after the map was
already overwritten, exactly as the source does. -/
def set (cfg : Config) (calcSize : T → Nat) (s : State T) (k : String)
    (data : T) (customTtl : Option Nat) (sizeArg : Option Nat) (now : Nat) :
    State T :=
  let ttl := jsOr customTtl cfg.ttl
  let entrySize := jsOr sizeArg (calcSize data)
  let entry : Entry T :=
    { data := data, expiresAt := now + ttl, lastAccessed := now,
      size := entrySize }
  let s1 := if cfg.maxSize ≤ s.cache.length ∧ ¬ mapHas s.cache k = true
    then evictLRU s else s
  let isUpdate := mapHas s1.cache k
  let cache' := mapSet s1.cache k entry
  let tsb :=
    if isUpdate then
      (match mapGet cache' k with
        | some oldEntry => s1.stats.totalSizeBytes - (oldEntry.size : Int)
        | none => s1.stats.totalSizeBytes) + (entrySize : Int)
    else s1.stats.totalSizeBytes + (entrySize : Int)
  { s1 with
      cache := cache'
      accessOrder := updateAccessOrder s1.accessOrder k
      stats := { s1.stats with size := cache'.length, totalSizeBytes := tsb } }

/-- has: expiry-aware membership test; deletes a stale entry but touches
no counter and leaves a live entry completely untouched. -/
def has (s : State T) (k : String) (now : Nat) : State T × Bool :=
  match mapGet s.cache k with
  | none => (s, false)
  | some entry =>
    if entry.expiresAt < now then ((deleteEntry s k).1, false)
    else (s, true)

/-- clear: drops all entries, the access order, and resets the stats. -/
def clearAll (s : State T) : State T :=
  { cache := [], accessOrder := [], stats := initStats,
    totalResponseTime := s.totalResponseTime,
    totalRequests := s.totalRequests }

/-- cleanupStaleEntries: the background sweep deletes every expired entry
and adds the count removed in the pass to staleEntriesCleaned. -/
def cleanupStaleEntries (s : State T) (now : Nat) : State T :=
  let expiredKeys :=
    (s.cache.filter (fun p => p.2.expiresAt < now)).map Prod.fst
  let s' := expiredKeys.foldl (fun st k => (deleteEntry st k).1) s
  if 0 < expiredKeys.length then
    { s' with stats := { s'.stats with
        staleEntriesCleaned := s'.stats.staleEntriesCleaned +
          expiredKeys.length } }
  else s'

/-- getStats: recomputes averageResponseTime as the stats record's
averageResponseTime field divided by the hit+miss total (the source reads
stats.averageResponseTime here, not the totalResponseTime accumulator). -/
def getStats (s : State T) : Stats :=
  let totalRequests := s.stats.hits + s.stats.misses
  { s.stats with
      averageResponseTime :=
        if 0 < totalRequests then
          s.stats.averageResponseTime / (totalRequests : Int)
        else 0 }

/-- The externally driven cache operations. -/
inductive Event (T : Type) where
  | setE (k : String) (data : T) (ttl sizeArg : Option Nat) (now : Nat)
  | getE (k : String) (now : Nat)
  | delE (k : String)
  | hasE (k : String) (now : Nat)
  | clearE
  | sweepE (now : Nat)

def step (cfg : Config) (calcSize : T → Nat) (s : State T) :
    Event T → State T
  | .setE k d ttl sz now => set cfg calcSize s k d ttl sz now
  | .getE k now => (get s k now).1
  | .delE k => (deleteEntry s k).1
  | .hasE k now => (has s k now).1
  | .clearE => clearAll s
  | .sweepE now => cleanupStaleEntries s now

def runCache (cfg : Config) (calcSize : T → Nat) (events : List (Event T)) :
    State T :=
  events.foldl (step cfg calcSize) (initState T)

end Cache

namespace Cache

theorem mapGet_mapDelete_self (m : List (String × Entry T)) (k : String) :
    mapGet (mapDelete m k) k = none := by
  induction m with
  | nil => rfl
  | cons p rest ih =>
    by_cases h : p.1 = k
    · simp only [mapDelete, List.filter_cons, h, bne_self_eq_false,
        Bool.false_eq_true, if_false] at ih ⊢
      exact ih
    · have hb : (p.1 != k) = true := by simp [h]
      have hbeq : (p.1 == k) = false := by simp [h]
      simp only [mapDelete, List.filter_cons, hb, if_true, mapGet,
        List.find?_cons, hbeq] at ih ⊢
      exact ih

end Cache

/-- Default configuration of createLRUCache. -/
def cfgDefault : Cache.Config :=
  { maxSize := 100, ttl := 60000, cleanupInterval := 10000 }

def keyA : String := "a"

def keyB : String := "b"

/-- A size estimator standing in for calculateSize; the scenarios below
always pass an explicit size, so its value is irrelevant. -/
def czero : Nat → Nat := fun _ => 0

/-- State after set(keyA, size 10, t=0) followed by set(keyA, size 20, t=1). -/
def claimC1State : Cache.State Nat :=
  Cache.set cfgDefault czero
    (Cache.set cfgDefault czero (Cache.initState Nat) keyA 5 none (some 10) 0)
    keyA 6 none (some 20) 1

/-- C1: the claim says a set that overwrites an existing key subtracts the
prior size and adds the new size, keeping totalSizeBytes equal to the sum
of live entry sizes.  The code reads the old entry only after the map has
been overwritten, so after storing keyA with size 10 and overwriting it
with size 20, totalSizeBytes is still 10 while the only live entry has
size 20. -/
theorem claim_C1_totalSizeBytes_bug :
    claimC1State.stats.totalSizeBytes = 10 ∧
    (claimC1State.cache.map (fun p => (p.2.size : Int))).sum = 20 := by
  constructor <;> rfl

/-- State exhibiting the averageResponseTime defect: one stored key, one
hit with a recorded latency of 5 ms. -/
def claimC7State : Cache.State Nat :=
  Cache.updateStats
    ((Cache.get
        (Cache.set cfgDefault czero (Cache.initState Nat) keyA 5 none
          (some 10) 0)
        keyA 2).1)
    5

/-- C7: the claim says getStats().averageResponseTime is the running total
of recorded latencies divided by the hit+miss count.  The code divides the
stats record's averageResponseTime field, which nothing ever accumulates
into, so after one hit with 5 ms of recorded latency the reported average
is 0 instead of 5. -/
theorem claim_C7_averageResponseTime_bug :
    (Cache.getStats claimC7State).averageResponseTime = 0 ∧
    claimC7State.totalResponseTime = 5 ∧
    claimC7State.stats.hits + claimC7State.stats.misses = 1 := by
  refine ⟨rfl, rfl, rfl⟩

/-- C8: an entry stored at time t0 with TTL ttl is, at any now with
now - t0 > ttl, reported as a miss by get (which also records the miss and
deletes the entry) and reported absent by has (which also deletes the
entry), without any background sweep having run. -/
theorem claim_C8_expired_entry_lazy_miss {T : Type} (s : Cache.State T)
    (k : String) (e : Cache.Entry T) (t0 ttl now : Nat)
    (hmem : Cache.mapGet s.cache k = some e)
    (hexp : e.expiresAt = t0 + ttl) (hlate : ttl < now - t0) :
    (Cache.get s k now).2 = none ∧
    (Cache.get s k now).1.stats.misses = s.stats.misses + 1 ∧
    Cache.mapGet (Cache.get s k now).1.cache k = none ∧
    (Cache.has s k now).2 = false ∧
    Cache.mapGet (Cache.has s k now).1.cache k = none := by
  have hlt : e.expiresAt < now := by omega
  refine ⟨?_, ?_, ?_, ?_, ?_⟩ <;>
    simp [Cache.get, Cache.has, Cache.deleteEntry, hmem, hlt,
      Cache.mapGet_mapDelete_self]

/-- Witness state for C8/C10: keyB stored at time 100 with TTL 50. -/
def witEntryState : Cache.State Nat :=
  Cache.set cfgDefault czero (Cache.initState Nat) keyB 1 (some 50) (some 4)
    100

def witEntry : Cache.Entry Nat :=
  { data := 1, expiresAt := 150, lastAccessed := 100, size := 4 }

/-- Witness for C8 at the concrete stored entry, with now = 151. -/
theorem claim_C8_expired_entry_lazy_miss_witness :
    (Cache.mapGet witEntryState.cache keyB = some witEntry ∧
      witEntry.expiresAt = 100 + 50 ∧ 50 < 151 - 100) ∧
    ((Cache.get witEntryState keyB 151).2 = none ∧
      (Cache.get witEntryState keyB 151).1.stats.misses =
        witEntryState.stats.misses + 1 ∧
      Cache.mapGet (Cache.get witEntryState keyB 151).1.cache keyB = none ∧
      (Cache.has witEntryState keyB 151).2 = false ∧
      Cache.mapGet (Cache.has witEntryState keyB 151).1.cache keyB = none) :=
  ⟨⟨rfl, rfl, by decide⟩,
    claim_C8_expired_entry_lazy_miss witEntryState keyB witEntry 100 50 151
      rfl rfl (by decide)⟩

/-- C10: has(k) on a live entry returns true and leaves the state
literally unchanged (no recency move, no lastAccessed refresh, no
counters); has(k) on an expired entry deletes it but leaves misses,
staleEntriesCleaned and hits untouched, and only ever removes k itself
from the recency order. -/
theorem claim_C10_has_is_effect_free {T : Type} (s : Cache.State T)
    (k : String) (e : Cache.Entry T) (now1 now2 : Nat)
    (hmem : Cache.mapGet s.cache k = some e)
    (hlive : ¬ e.expiresAt < now1) (hexp : e.expiresAt < now2) :
    Cache.has s k now1 = (s, true) ∧
    (Cache.has s k now2).2 = false ∧
    (Cache.has s k now2).1.stats.misses = s.stats.misses ∧
    (Cache.has s k now2).1.stats.staleEntriesCleaned =
      s.stats.staleEntriesCleaned ∧
    (Cache.has s k now2).1.stats.hits = s.stats.hits ∧
    (Cache.has s k now2).1.accessOrder =
      Cache.removeFromAccessOrder s.accessOrder k ∧
    Cache.mapGet (Cache.has s k now2).1.cache k = none := by
  refine ⟨?_, ?_, ?_, ?_, ?_, ?_, ?_⟩ <;>
    simp [Cache.has, Cache.deleteEntry, hmem, hlive, hexp,
      Cache.mapGet_mapDelete_self]

/-- Witness for C10 at the concrete stored entry: live at now = 120,
expired at now = 151. -/
theorem claim_C10_has_is_effect_free_witness :
    (Cache.mapGet witEntryState.cache keyB = some witEntry ∧
      ¬ witEntry.expiresAt < 120 ∧ witEntry.expiresAt < 151) ∧
    (Cache.has witEntryState keyB 120 = (witEntryState, true) ∧
      (Cache.has witEntryState keyB 151).2 = false ∧
      (Cache.has witEntryState keyB 151).1.stats.misses =
        witEntryState.stats.misses ∧
      (Cache.has witEntryState keyB 151).1.stats.staleEntriesCleaned =
        witEntryState.stats.staleEntriesCleaned ∧
      (Cache.has witEntryState keyB 151).1.stats.hits =
        witEntryState.stats.hits ∧
      (Cache.has witEntryState keyB 151).1.accessOrder =
        Cache.removeFromAccessOrder witEntryState.accessOrder keyB ∧
      Cache.mapGet (Cache.has witEntryState keyB 151).1.cache keyB = none) :=
  ⟨⟨rfl, by decide, by decide⟩,
    claim_C10_has_is_effect_free witEntryState keyB witEntry 120 151 rfl
      (by decide) (by decide)⟩

namespace Cache

/-- The key set of the cache Map, in insertion order. -/
def keysOf (m : List (String × Entry T)) : List String := m.map Prod.fst

theorem keysOf_mapDelete (m : List (String × Entry T)) (k : String) :
    keysOf (mapDelete m k) = (keysOf m).filter (fun x => x != k) := by
  induction m with
  | nil => rfl
  | cons p rest ih =>
    by_cases h : p.1 = k
    · simp only [mapDelete, keysOf, List.filter_cons, h, bne_self_eq_false,
        Bool.false_eq_true, if_false, List.map_cons] at ih ⊢
      exact ih
    · have hb : (p.1 != k) = true := by simp [h]
      simp only [mapDelete, keysOf, List.filter_cons, List.map_cons, hb,
        if_true] at ih ⊢
      rw [ih]

theorem filter_bne_eq_erase (l : List String) (k : String) (h : l.Nodup) :
    l.filter (fun x => x != k) = l.erase k := by
  induction l with
  | nil => rfl
  | cons a l ih =>
    rcases List.nodup_cons.mp h with ⟨ha, hl⟩
    by_cases hak : a = k
    · subst hak
      rw [List.filter_cons]
      simp only [bne_self_eq_false, Bool.false_eq_true, if_false,
        List.erase_cons_head]
      exact List.filter_eq_self.mpr (fun x hx => by
        have : x ≠ a := fun hxa => ha (hxa ▸ hx)
        simp [this])
    · have hb : (a != k) = true := by simp [hak]
      rw [List.filter_cons, if_pos hb, ih hl, List.erase_cons_tail]
      simp [hak]

theorem mapHas_iff_mem (m : List (String × Entry T)) (k : String) :
    mapHas m k = true ↔ k ∈ keysOf m := by
  induction m with
  | nil => simp [mapHas, keysOf]
  | cons p rest ih =>
    by_cases h : p.1 = k
    · simp [mapHas, keysOf, List.find?_cons, h]
    · have hb : (p.1 == k) = false := by simp [h]
      simp only [mapHas, keysOf, List.find?_cons, hb, List.map_cons,
        List.mem_cons] at ih ⊢
      rw [ih]
      constructor
      · exact Or.inr
      · rintro (rfl | hmem)
        · exact absurd rfl h
        · exact hmem

theorem mem_of_mapGet_eq_some {m : List (String × Entry T)} {k : String}
    {e : Entry T} (hm : mapGet m k = some e) : k ∈ keysOf m := by
  have : mapHas m k = true := by
    simp only [mapHas, mapGet] at hm ⊢
    cases hfind : m.find? (fun p => p.1 == k) with
    | none => rw [hfind] at hm; exact absurd hm (by simp)
    | some p => simp
  exact (mapHas_iff_mem m k).mp this

theorem exists_mapGet_of_mem {m : List (String × Entry T)} {k : String}
    (h : k ∈ keysOf m) : ∃ e, mapGet m k = some e := by
  have := (mapHas_iff_mem m k).mpr h
  simp only [mapHas] at this
  rcases Option.isSome_iff_exists.mp this with ⟨p, hp⟩
  exact ⟨p.2, by simp [mapGet, hp]⟩

theorem keysOf_mapSet_of_has {m : List (String × Entry T)} {k : String}
    (v : Entry T) (h : mapHas m k = true) :
    keysOf (mapSet m k v) = keysOf m := by
  simp only [mapSet, h, if_true, keysOf, List.map_map]
  apply List.map_congr_left
  intro p _
  by_cases hp : p.1 = k
  · simp [Function.comp, hp]
  · simp [Function.comp, hp]

theorem length_mapSet_of_has {m : List (String × Entry T)} {k : String}
    (v : Entry T) (h : mapHas m k = true) :
    (mapSet m k v).length = m.length := by
  simp [mapSet, h]

theorem keysOf_mapSet_of_not_has {m : List (String × Entry T)} {k : String}
    (v : Entry T) (h : mapHas m k = false) :
    keysOf (mapSet m k v) = keysOf m ++ [k] := by
  simp [mapSet, h, keysOf]

theorem length_mapSet_of_not_has {m : List (String × Entry T)} {k : String}
    (v : Entry T) (h : mapHas m k = false) :
    (mapSet m k v).length = m.length + 1 := by
  simp [mapSet, h]

theorem mapHas_of_mapGet_eq_some {m : List (String × Entry T)} {k : String}
    {e : Entry T} (hm : mapGet m k = some e) : mapHas m k = true :=
  (mapHas_iff_mem m k).mpr (mem_of_mapGet_eq_some hm)

end Cache

namespace Cache

/-- The structural invariant of the cache state: the access order lists
exactly the live keys, without duplicates, and the entry count is within
the configured bound. -/
def Inv (cfg : Config) (s : State T) : Prop :=
  s.accessOrder.Perm (keysOf s.cache) ∧ s.accessOrder.Nodup ∧
  s.cache.length ≤ cfg.maxSize

theorem keysOf_nodup_of_inv {cfg : Config} {s : State T} (h : Inv cfg s) :
    (keysOf s.cache).Nodup :=
  h.1.nodup h.2.1

theorem keysOf_mapDelete_of_nodup {m : List (String × Entry T)} {k : String}
    (h : (keysOf m).Nodup) :
    keysOf (mapDelete m k) = (keysOf m).erase k := by
  rw [keysOf_mapDelete, filter_bne_eq_erase _ _ h]

theorem inv_deleteEntry {cfg : Config} {s : State T} (h : Inv cfg s)
    (k : String) : Inv cfg (deleteEntry s k).1 := by
  rcases h with ⟨hperm, hnodup, hlen⟩
  unfold deleteEntry
  cases hm : mapGet s.cache k with
  | none => exact ⟨hperm, hnodup, hlen⟩
  | some e =>
    refine ⟨?_, hnodup.erase k, ?_⟩
    · rw [keysOf_mapDelete_of_nodup (hperm.nodup hnodup)]
      exact hperm.erase k
    · exact le_trans (List.length_filter_le _ _) hlen

theorem length_mapDelete_of_mem {m : List (String × Entry T)} {k : String}
    (hnd : (keysOf m).Nodup) (hmem : k ∈ keysOf m) :
    (mapDelete m k).length = m.length - 1 := by
  have h1 : (mapDelete m k).length = (keysOf (mapDelete m k)).length := by
    simp [keysOf]
  have h2 : m.length = (keysOf m).length := by simp [keysOf]
  rw [h1, h2, keysOf_mapDelete_of_nodup hnd, List.length_erase_of_mem hmem]

theorem dropLast_erase_getLast {l : List String} {a : String}
    (hnodup : l.Nodup) (hlast : l.getLast? = some a) :
    l.erase a = l.dropLast ∧ a ∈ l := by
  have hsplit : l.dropLast ++ [a] = l :=
    List.dropLast_append_getLast? a hlast
  have hmem : a ∈ l := by rw [← hsplit]; simp
  have hnotin : a ∉ l.dropLast := by
    have hnd : (l.dropLast ++ [a]).Nodup := by rw [hsplit]; exact hnodup
    rcases List.nodup_append.mp hnd with ⟨_, _, hdisj⟩
    intro hmem'
    exact hdisj hmem' (by simp)
  constructor
  · conv_lhs => rw [← hsplit]
    rw [List.erase_append_right _ hnotin, List.erase_cons_head,
      List.append_nil]
  · exact hmem

theorem inv_evictLRU {cfg : Config} {s : State T} (h : Inv cfg s) :
    Inv cfg (evictLRU s) := by
  rcases h with ⟨hperm, hnodup, hlen⟩
  cases hlast : s.accessOrder.getLast? with
  | none => simp only [evictLRU, hlast]; exact ⟨hperm, hnodup, hlen⟩
  | some lruKey =>
    rcases dropLast_erase_getLast hnodup hlast with ⟨herase, hmemOrd⟩
    have hmemKeys : lruKey ∈ keysOf s.cache := hperm.mem_iff.mp hmemOrd
    rcases exists_mapGet_of_mem hmemKeys with ⟨e, he⟩
    simp only [evictLRU, hlast, he]
    refine ⟨?_, hnodup.sublist (List.dropLast_sublist _), ?_⟩
    · rw [keysOf_mapDelete_of_nodup (hperm.nodup hnodup), ← herase]
      exact hperm.erase lruKey
    · exact le_trans (List.length_filter_le _ _) hlen

/-- With a nonempty access order, eviction removes exactly the entry whose
key sits at the back of the order and counts one eviction. -/
theorem evictLRU_at_capacity {cfg : Config} {s : State T} {lruKey : String}
    (h : Inv cfg s) (hlast : s.accessOrder.getLast? = some lruKey) :
    keysOf (evictLRU s).cache = (keysOf s.cache).erase lruKey ∧
    (evictLRU s).cache.length = s.cache.length - 1 ∧
    (evictLRU s).stats.evictions = s.stats.evictions + 1 ∧
    (evictLRU s).cache = mapDelete s.cache lruKey ∧
    (evictLRU s).accessOrder = s.accessOrder.dropLast := by
  rcases h with ⟨hperm, hnodup, hlen⟩
  rcases dropLast_erase_getLast hnodup hlast with ⟨_, hmemOrd⟩
  have hmemKeys : lruKey ∈ keysOf s.cache := hperm.mem_iff.mp hmemOrd
  rcases exists_mapGet_of_mem hmemKeys with ⟨e, he⟩
  simp only [evictLRU, hlast, he]
  refine ⟨?_, ?_, trivial, trivial, trivial⟩
  · exact keysOf_mapDelete_of_nodup (hperm.nodup hnodup)
  · exact length_mapDelete_of_mem (hperm.nodup hnodup) hmemKeys

end Cache

namespace Cache

/-- Inserting or overwriting a binding and moving its key to the front of
the access order preserves the key-set correspondence and freedom from
duplicates. -/
theorem perm_nodup_insert {m : List (String × Entry T)} {order : List String}
    (v : Entry T) (k : String) (hperm : List.Perm order (keysOf m))
    (hnodup : order.Nodup) :
    List.Perm (k :: order.erase k) (keysOf (mapSet m k v)) ∧
    (k :: order.erase k).Nodup := by
  by_cases hk : mapHas m k = true
  · rw [keysOf_mapSet_of_has v hk]
    have hmemOrd : k ∈ order := hperm.mem_iff.mpr ((mapHas_iff_mem m k).mp hk)
    refine ⟨(List.perm_cons_erase hmemOrd).symm.trans hperm, ?_⟩
    exact List.nodup_cons.mpr
      ⟨fun hc => absurd ((hnodup.mem_erase_iff).mp hc).1 (by simp),
        hnodup.erase k⟩
  · have hk' : mapHas m k = false := by simpa using hk
    rw [keysOf_mapSet_of_not_has v hk']
    have hnot : k ∉ order := fun hc => by
      have hm := (mapHas_iff_mem m k).mpr (hperm.mem_iff.mp hc)
      rw [hk'] at hm
      exact absurd hm (by simp)
    rw [List.erase_of_not_mem hnot]
    exact ⟨(hperm.cons k).trans (List.perm_append_singleton k _).symm,
      List.nodup_cons.mpr ⟨hnot, hnodup⟩⟩

theorem inv_set {cfg : Config} {s : State T} (calcSize : T → Nat)
    (k : String) (d : T) (ttl sz : Option Nat) (now : Nat) (hInv : Inv cfg s)
    (hmax : 1 ≤ cfg.maxSize) :
    Inv cfg (set cfg calcSize s k d ttl sz now) := by
  obtain ⟨hperm, hnodup, hlen⟩ := hInv
  by_cases hg : cfg.maxSize ≤ s.cache.length ∧ ¬ mapHas s.cache k = true
  · -- a new key arriving at capacity: evict first
    have hfull : s.cache.length = cfg.maxSize := le_antisymm hlen hg.1
    have hordlen : s.accessOrder.length = cfg.maxSize := by
      rw [hperm.length_eq]
      simpa [keysOf] using hfull
    have hne : s.accessOrder ≠ [] := by
      intro hnil
      rw [hnil] at hordlen
      simp at hordlen
      omega
    obtain ⟨lruKey, hlast⟩ : ∃ a, s.accessOrder.getLast? = some a := by
      cases hl : s.accessOrder.getLast? with
      | none => exact absurd (List.getLast?_eq_none_iff.mp hl) hne
      | some a => exact ⟨a, rfl⟩
    have hI : Inv cfg s := ⟨hperm, hnodup, hlen⟩
    have hInv1 := inv_evictLRU hI
    obtain ⟨hperm1, hnodup1, _⟩ := hInv1
    obtain ⟨hkeys1, hlen1, _, _, _⟩ := evictLRU_at_capacity hI hlast
    have hk1 : mapHas (evictLRU s).cache k = false := by
      rcases hcc : mapHas (evictLRU s).cache k with _ | _
      · rfl
      · exfalso
        have hmem1 := (mapHas_iff_mem _ k).mp hcc
        rw [hkeys1] at hmem1
        have hmem0 : k ∈ keysOf s.cache := List.mem_of_mem_erase hmem1
        have := (mapHas_iff_mem s.cache k).mpr hmem0
        rw [this] at hg
        exact hg.2 rfl
    simp only [set, if_pos hg]
    obtain ⟨hpermI, hnodupI⟩ :=
      perm_nodup_insert (T := T)
        { data := d, expiresAt := now + jsOr ttl cfg.ttl,
          lastAccessed := now, size := jsOr sz (calcSize d) } k hperm1 hnodup1
    refine ⟨hpermI, hnodupI, ?_⟩
    rw [length_mapSet_of_not_has _ hk1, hlen1, hfull]
    omega
  · -- no eviction
    simp only [set, if_neg hg]
    obtain ⟨hpermI, hnodupI⟩ :=
      perm_nodup_insert (T := T)
        { data := d, expiresAt := now + jsOr ttl cfg.ttl,
          lastAccessed := now, size := jsOr sz (calcSize d) } k hperm hnodup
    refine ⟨hpermI, hnodupI, ?_⟩
    rcases hk : mapHas s.cache k with _ | _
    · have hlt : s.cache.length < cfg.maxSize := by
        rcases Decidable.not_and_iff_or_not.mp hg with h1 | h2
        · omega
        · rw [hk] at h2
          simp at h2
      rw [length_mapSet_of_not_has _ hk]
      omega
    · rw [length_mapSet_of_has _ hk]
      exact hlen

theorem inv_get {cfg : Config} {s : State T} (k : String) (now : Nat)
    (hInv : Inv cfg s) : Inv cfg (get s k now).1 := by
  obtain ⟨hperm, hnodup, hlen⟩ := hInv
  cases hm : mapGet s.cache k with
  | none =>
    simp only [get, hm]
    exact ⟨hperm, hnodup, hlen⟩
  | some e =>
    by_cases hexp : e.expiresAt < now
    · simp only [get, hm, if_pos hexp]
      exact inv_deleteEntry ⟨hperm, hnodup, hlen⟩ k
    · simp only [get, hm, if_neg hexp]
      obtain ⟨hpermI, hnodupI⟩ :=
        perm_nodup_insert (T := T) { e with lastAccessed := now } k hperm
          hnodup
      refine ⟨hpermI, hnodupI, ?_⟩
      rw [length_mapSet_of_has _ (mapHas_of_mapGet_eq_some hm)]
      exact hlen

theorem inv_has {cfg : Config} {s : State T} (k : String) (now : Nat)
    (hInv : Inv cfg s) : Inv cfg (has s k now).1 := by
  cases hm : mapGet s.cache k with
  | none => simp only [has, hm]; exact hInv
  | some e =>
    by_cases hexp : e.expiresAt < now
    · simp only [has, hm, if_pos hexp]
      exact inv_deleteEntry hInv k
    · simp only [has, hm, if_neg hexp]
      exact hInv

theorem inv_clearAll {cfg : Config} {s : State T} :
    Inv cfg (clearAll s) := by
  refine ⟨?_, List.nodup_nil, ?_⟩ <;> simp [clearAll, keysOf]

theorem inv_foldl_deleteEntry {cfg : Config} (ks : List String) :
    ∀ s : State T, Inv cfg s →
      Inv cfg (ks.foldl (fun st k => (deleteEntry st k).1) s) := by
  induction ks with
  | nil => intro s h; exact h
  | cons k rest ih =>
    intro s h
    exact ih _ (inv_deleteEntry h k)

theorem inv_cleanupStaleEntries {cfg : Config} {s : State T} (now : Nat)
    (hInv : Inv cfg s) : Inv cfg (cleanupStaleEntries s now) := by
  have h1 := inv_foldl_deleteEntry
    ((s.cache.filter (fun p => p.2.expiresAt < now)).map Prod.fst) s hInv
  simp only [cleanupStaleEntries]
  split
  · exact ⟨h1.1, h1.2.1, h1.2.2⟩
  · exact h1

theorem inv_step {cfg : Config} {s : State T} (calcSize : T → Nat)
    (e : Event T) (hInv : Inv cfg s) (hmax : 1 ≤ cfg.maxSize) :
    Inv cfg (step cfg calcSize s e) := by
  cases e with
  | setE k d ttl sz now => exact inv_set calcSize k d ttl sz now hInv hmax
  | getE k now => exact inv_get k now hInv
  | delE k => exact inv_deleteEntry hInv k
  | hasE k now => exact inv_has k now hInv
  | clearE => exact inv_clearAll
  | sweepE now => exact inv_cleanupStaleEntries now hInv

theorem inv_runCache (cfg : Config) (calcSize : T → Nat)
    (events : List (Event T)) (hmax : 1 ≤ cfg.maxSize) :
    Inv cfg (runCache cfg calcSize events) := by
  have hinit : Inv cfg (initState T) := by
    refine ⟨?_, List.nodup_nil, ?_⟩ <;> simp [initState, keysOf]
  rw [runCache]
  have hfold : ∀ (es : List (Event T)) (s : State T), Inv cfg s →
      Inv cfg (es.foldl (step cfg calcSize) s) := by
    intro es
    induction es with
    | nil => intro s h; exact h
    | cons e rest ih =>
      intro s h
      exact ih _ (inv_step calcSize e h hmax)
  exact hfold events _ hinit

end Cache

namespace Cache

theorem mapHas_false_of_not_mem {m : List (String × Entry T)} {k : String}
    (h : k ∉ keysOf m) : mapHas m k = false := by
  rcases hc : mapHas m k with _ | _
  · rfl
  · exact absurd ((mapHas_iff_mem m k).mp hc) h

/-- A set on an existing key changes no key, evicts nothing, and moves the
key to the front of the access order. -/
theorem set_update_facts {s : State T} (cfg : Config) (calcSize : T → Nat)
    (k : String) (d : T) (ttl sz : Option Nat) (now : Nat)
    (hk : mapHas s.cache k = true) :
    (set cfg calcSize s k d ttl sz now).cache.length = s.cache.length ∧
    (set cfg calcSize s k d ttl sz now).stats.evictions =
      s.stats.evictions ∧
    keysOf (set cfg calcSize s k d ttl sz now).cache = keysOf s.cache ∧
    (set cfg calcSize s k d ttl sz now).accessOrder =
      k :: s.accessOrder.erase k := by
  have hguard : ¬ (cfg.maxSize ≤ s.cache.length ∧
      ¬ mapHas s.cache k = true) := by simp [hk]
  simp only [set, if_neg hguard]
  refine ⟨length_mapSet_of_has _ hk, ?_, keysOf_mapSet_of_has _ hk, ?_⟩ <;>
    trivial

/-- A set inserting a new key while at capacity evicts exactly the key at
the back of the access order, counts one eviction, and keeps the entry
count at the capacity. -/
theorem set_new_at_capacity_facts {cfg : Config} {s : State T}
    (calcSize : T → Nat) (k : String) (d : T) (ttl sz : Option Nat)
    (now : Nat) (hInv : Inv cfg s) (hk : mapHas s.cache k = false)
    (hfull : s.cache.length = cfg.maxSize) (hmax : 1 ≤ cfg.maxSize) :
    ∃ lruKey, s.accessOrder.getLast? = some lruKey ∧
      keysOf (set cfg calcSize s k d ttl sz now).cache =
        ((keysOf s.cache).erase lruKey) ++ [k] ∧
      (set cfg calcSize s k d ttl sz now).stats.evictions =
        s.stats.evictions + 1 ∧
      (set cfg calcSize s k d ttl sz now).cache.length = cfg.maxSize := by
  obtain ⟨hperm, hnodup, hlen⟩ := hInv
  have hordlen : s.accessOrder.length = cfg.maxSize := by
    rw [hperm.length_eq]
    simpa [keysOf] using hfull
  have hne : s.accessOrder ≠ [] := by
    intro hnil
    rw [hnil] at hordlen
    simp at hordlen
    omega
  obtain ⟨lruKey, hlast⟩ : ∃ a, s.accessOrder.getLast? = some a := by
    cases hl : s.accessOrder.getLast? with
    | none => exact absurd (List.getLast?_eq_none_iff.mp hl) hne
    | some a => exact ⟨a, rfl⟩
  have hI : Inv cfg s := ⟨hperm, hnodup, hlen⟩
  obtain ⟨hkeys1, hlen1, hev1, _, _⟩ := evictLRU_at_capacity hI hlast
  have hk1 : mapHas (evictLRU s).cache k = false := by
    apply mapHas_false_of_not_mem
    rw [hkeys1]
    intro hmem1
    have hmem0 : k ∈ keysOf s.cache := List.mem_of_mem_erase hmem1
    have := (mapHas_iff_mem s.cache k).mpr hmem0
    rw [hk] at this
    exact absurd this (by simp)
  have hg : cfg.maxSize ≤ s.cache.length ∧ ¬ mapHas s.cache k = true :=
    ⟨le_of_eq hfull.symm, by simp [hk]⟩
  refine ⟨lruKey, hlast, ?_, ?_, ?_⟩
  · simp only [set, if_pos hg]
    rw [keysOf_mapSet_of_not_has _ hk1, hkeys1]
  · simp only [set, if_pos hg]
    exact hev1
  · simp only [set, if_pos hg]
    rw [length_mapSet_of_not_has _ hk1, hlen1, hfull]
    omega

/-- A hit moves the key to the front of the access order and counts a
hit. -/
theorem get_hit_front {s : State T} {k : String} {now : Nat}
    (hhit : (get s k now).2.isSome = true) :
    (get s k now).1.accessOrder = k :: s.accessOrder.erase k ∧
    (get s k now).1.stats.hits = s.stats.hits + 1 := by
  cases hm : mapGet s.cache k with
  | none => simp [get, hm] at hhit
  | some e =>
    by_cases hexp : e.expiresAt < now
    · simp [get, hm, hexp] at hhit
    · simp only [get, hm, if_neg hexp]
      refine ⟨?_, ?_⟩ <;> trivial

end Cache

/-- C2: for every sequence of cache operations (which includes every
sequence of set calls) under a configuration with maxEntries at least 1,
the live entry count never exceeds maxEntries; a set that updates an
existing key k1 changes neither the entry count, nor the eviction
counter, nor the key set, and merely moves k1 to the front of the
recency order; a set that inserts a new key k2 while the store is at
capacity evicts exactly the key at the back of the recency order
(the least recently touched, since get hits and sets move keys to the
front and nothing else reorders them) and counts one eviction; a get hit
on k1 moves it to the front of the recency order. -/
theorem claim_C2_entry_bound_and_lru {T : Type} (cfg : Cache.Config)
    (calcSize : T → Nat) (events : List (Cache.Event T)) (k1 k2 : String)
    (d1 d2 : T) (ttl1 sz1 ttl2 sz2 : Option Nat) (now1 now2 now3 : Nat)
    (hmax : 1 ≤ cfg.maxSize)
    (hk1 : Cache.mapHas (Cache.runCache cfg calcSize events).cache k1 = true)
    (hk2 : Cache.mapHas (Cache.runCache cfg calcSize events).cache k2 = false)
    (hfull : (Cache.runCache cfg calcSize events).cache.length = cfg.maxSize)
    (hhit : ((Cache.get (Cache.runCache cfg calcSize events) k1 now3).2).isSome
      = true) :
    (Cache.runCache cfg calcSize events).cache.length ≤ cfg.maxSize ∧
    (Cache.set cfg calcSize (Cache.runCache cfg calcSize events) k1 d1 ttl1
        sz1 now1).cache.length
      = (Cache.runCache cfg calcSize events).cache.length ∧
    (Cache.set cfg calcSize (Cache.runCache cfg calcSize events) k1 d1 ttl1
        sz1 now1).stats.evictions
      = (Cache.runCache cfg calcSize events).stats.evictions ∧
    Cache.keysOf (Cache.set cfg calcSize (Cache.runCache cfg calcSize events)
        k1 d1 ttl1 sz1 now1).cache
      = Cache.keysOf (Cache.runCache cfg calcSize events).cache ∧
    (Cache.set cfg calcSize (Cache.runCache cfg calcSize events) k1 d1 ttl1
        sz1 now1).accessOrder
      = k1 :: (Cache.runCache cfg calcSize events).accessOrder.erase k1 ∧
    (∃ lruKey,
      (Cache.runCache cfg calcSize events).accessOrder.getLast? = some lruKey ∧
      Cache.keysOf (Cache.set cfg calcSize (Cache.runCache cfg calcSize events)
          k2 d2 ttl2 sz2 now2).cache
        = ((Cache.keysOf (Cache.runCache cfg calcSize events).cache).erase
            lruKey) ++ [k2] ∧
      (Cache.set cfg calcSize (Cache.runCache cfg calcSize events) k2 d2 ttl2
          sz2 now2).stats.evictions
        = (Cache.runCache cfg calcSize events).stats.evictions + 1 ∧
      (Cache.set cfg calcSize (Cache.runCache cfg calcSize events) k2 d2 ttl2
          sz2 now2).cache.length = cfg.maxSize) ∧
    (Cache.get (Cache.runCache cfg calcSize events) k1 now3).1.accessOrder
      = k1 :: (Cache.runCache cfg calcSize events).accessOrder.erase k1 := by
  have hInv := Cache.inv_runCache cfg calcSize events hmax
  obtain ⟨hu1, hu2, hu3, hu4⟩ :=
    Cache.set_update_facts cfg calcSize k1 d1 ttl1 sz1 now1 hk1
  refine ⟨hInv.2.2, hu1, hu2, hu3, hu4, ?_, (Cache.get_hit_front hhit).1⟩
  exact Cache.set_new_at_capacity_facts calcSize k2 d2 ttl2 sz2 now2 hInv hk2
    hfull hmax

/-- Capacity-2 configuration for the eviction scenario. -/
def c2cfg : Cache.Config := { maxSize := 2, ttl := 60000, cleanupInterval := 10000 }

def keyC : String := "c"

/-- The scenario set(a), set(b), get(a), set(c): c evicts b, so a and c
remain, with a the most recent hit target. -/
def c2events : List (Cache.Event Nat) :=
  [.setE keyA 1 none (some 1) 0, .setE keyB 2 none (some 1) 1,
   .getE keyA 2, .setE keyC 3 none (some 1) 3]

def c2state : Cache.State Nat := Cache.runCache c2cfg czero c2events

/-- Witness for C2 on the spec scenario (maxEntries 2; a and c live, b
evicted): keyA is live and updating it evicts nothing, keyB is absent and
inserting it at capacity evicts the back of the recency order. -/
theorem claim_C2_entry_bound_and_lru_witness :
    (1 ≤ c2cfg.maxSize ∧
      Cache.mapHas c2state.cache keyA = true ∧
      Cache.mapHas c2state.cache keyB = false ∧
      c2state.cache.length = c2cfg.maxSize ∧
      ((Cache.get c2state keyA 4).2).isSome = true) ∧
    (c2state.cache.length ≤ c2cfg.maxSize ∧
      (Cache.set c2cfg czero c2state keyA 9 none none 10).cache.length
        = c2state.cache.length ∧
      (Cache.set c2cfg czero c2state keyA 9 none none 10).stats.evictions
        = c2state.stats.evictions ∧
      Cache.keysOf (Cache.set c2cfg czero c2state keyA 9 none none 10).cache
        = Cache.keysOf c2state.cache ∧
      (Cache.set c2cfg czero c2state keyA 9 none none 10).accessOrder
        = keyA :: c2state.accessOrder.erase keyA ∧
      (∃ lruKey, c2state.accessOrder.getLast? = some lruKey ∧
        Cache.keysOf (Cache.set c2cfg czero c2state keyB 9 none (some 1)
            11).cache
          = ((Cache.keysOf c2state.cache).erase lruKey) ++ [keyB] ∧
        (Cache.set c2cfg czero c2state keyB 9 none (some 1)
            11).stats.evictions = c2state.stats.evictions + 1 ∧
        (Cache.set c2cfg czero c2state keyB 9 none (some 1) 11).cache.length
          = c2cfg.maxSize) ∧
      (Cache.get c2state keyA 4).1.accessOrder
        = keyA :: c2state.accessOrder.erase keyA) :=
  ⟨⟨by decide, rfl, rfl, rfl, rfl⟩,
    claim_C2_entry_bound_and_lru c2cfg czero c2events keyA keyB 9 9 none none
      none (some 1) 10 11 4 (by decide) rfl rfl rfl rfl⟩

namespace Sched

/-- A pending QueueItem of createAsyncQueue.  The id stands for the task
record's identity (its task closure and resolve/reject pair); the
operation itself is external work whose completion arrives as a settle
event, so it is not part of the state. -/
structure QueueItem where
  id : Nat
  priority : Int
deriving DecidableEq, Repr

/-- The closure state of createAsyncQueue: the pending queue and the
isProcessing / activeWorkers / completedTasks / failedTasks variables.
nextId is the source of fresh task identities for submissions; running
and dispatched record which operations are currently in flight and every
operation ever started, in start order (observational history needed to
state the claims, not consulted by the algorithm). -/
structure QState where
  queue : List QueueItem
  isProcessing : Bool
  activeWorkers : Nat
  completedTasks : Nat
  failedTasks : Nat
  nextId : Nat
  running : List Nat
  dispatched : List Nat
deriving DecidableEq, Repr

def initQ : QState :=
  { queue := [], isProcessing := false, activeWorkers := 0,
    completedTasks := 0, failedTasks := 0, nextId := 0, running := [],
    dispatched := [] }

/-- The while loop of processQueue: while the queue is nonempty and the
active count is below the limit, shift the front item, increment the
active count and start the item's operation. -/
def dispatchLoop (maxConcurrent : Nat) :
    List QueueItem → Nat → List Nat → List Nat →
      List QueueItem × Nat × List Nat × List Nat
  | [], active, running, disp => ([], active, running, disp)
  | item :: rest, active, running, disp =>
    if active < maxConcurrent then
      dispatchLoop maxConcurrent rest (active + 1) (running ++ [item.id])
        (disp ++ [item.id])
    else (item :: rest, active, running, disp)

/-- processQueue: returns immediately when already processing or at the
concurrency limit; otherwise runs the dispatch loop and clears the
isProcessing flag. -/
def processQueue (maxConcurrent : Nat) (s : QState) : QState :=
  if s.isProcessing = true ∨ maxConcurrent ≤ s.activeWorkers then s
  else
    match dispatchLoop maxConcurrent s.queue s.activeWorkers s.running
      s.dispatched with
    | (q', active', running', disp') =>
      { s with
          queue := q'
          activeWorkers := active'
          running := running'
          dispatched := disp'
          isProcessing := false }

/-- The insertion scan of enqueue: insert immediately before the first
pending item whose priority is strictly lower than the new item's,
appending at the back when there is none. -/
def insertByPriority (item : QueueItem) : List QueueItem → List QueueItem
  | [] => [item]
  | x :: rest =>
    if x.priority < item.priority then item :: x :: rest
    else x :: insertByPriority item rest

/-- enqueue: creates the task record with a fresh identity, inserts it by
priority and triggers dispatch. -/
def enqueue (maxConcurrent : Nat) (priority : Int) (s : QState) : QState :=
  let item : QueueItem := { id := s.nextId, priority := priority }
  processQueue maxConcurrent
    { s with queue := insertByPriority item s.queue, nextId := s.nextId + 1 }

/-- The then/catch/finally callbacks that fire when a started operation
settles: record the tally, decrement the active count, clear isProcessing
and re-trigger dispatch.  A promise settles exactly once and only for an
operation that was started, which the membership guard encodes. -/
def settleTask (maxConcurrent : Nat) (tid : Nat) (success : Bool)
    (s : QState) : QState :=
  if tid ∈ s.running then
    processQueue maxConcurrent
      { s with
          running := s.running.erase tid
          activeWorkers := s.activeWorkers - 1
          completedTasks :=
            if success then s.completedTasks + 1 else s.completedTasks
          failedTasks :=
            if success then s.failedTasks else s.failedTasks + 1
          isProcessing := false }
  else s

/-- The externally driven scheduler events. -/
inductive QEvent where
  | submit (priority : Int)
  | settle (tid : Nat) (success : Bool)
deriving DecidableEq, Repr

def qstep (maxConcurrent : Nat) (s : QState) : QEvent → QState
  | .submit p => enqueue maxConcurrent p s
  | .settle tid ok => settleTask maxConcurrent tid ok s

def runQ (maxConcurrent : Nat) (events : List QEvent) : QState :=
  events.foldl (qstep maxConcurrent) initQ

end Sched

namespace Sched

/-- The dispatch loop consumes some front segment of the queue: it
returns the remaining suffix, raises the active count by the number of
items taken, and appends exactly those items' ids to the running and
dispatched histories, in queue order. -/
theorem dispatchLoop_shape (maxConcurrent : Nat) :
    ∀ (q : List QueueItem) (active : Nat) (running disp : List Nat),
      ∃ k, k ≤ q.length ∧
        dispatchLoop maxConcurrent q active running disp =
          (q.drop k, active + k, running ++ (q.take k).map QueueItem.id,
            disp ++ (q.take k).map QueueItem.id) := by
  intro q
  induction q with
  | nil =>
    intro active running disp
    exact ⟨0, by simp [dispatchLoop]⟩
  | cons x rest ih =>
    intro active running disp
    by_cases h : active < maxConcurrent
    · obtain ⟨k, hk, heq⟩ := ih (active + 1) (running ++ [x.id])
        (disp ++ [x.id])
      refine ⟨k + 1, by simpa using Nat.succ_le_succ hk, ?_⟩
      rw [dispatchLoop, if_pos h, heq]
      simp only [List.drop_succ_cons, List.take_succ_cons, List.map_cons,
        Prod.mk.injEq]
      refine ⟨by trivial, by omega, by simp [List.append_assoc],
        by simp [List.append_assoc]⟩
    · exact ⟨0, by simp [dispatchLoop, if_neg h]⟩

theorem dispatchLoop_active_le (maxConcurrent : Nat) :
    ∀ (q : List QueueItem) (active : Nat) (running disp : List Nat),
      active ≤ maxConcurrent →
      (dispatchLoop maxConcurrent q active running disp).2.1 ≤
        maxConcurrent := by
  intro q
  induction q with
  | nil => intro active running disp h; exact h
  | cons x rest ih =>
    intro active running disp h
    by_cases hlt : active < maxConcurrent
    · rw [dispatchLoop, if_pos hlt]
      exact ih (active + 1) _ _ hlt
    · rw [dispatchLoop, if_neg hlt]
      exact h

/-- The ids present across the pending queue and the dispatch history are
preserved, up to order, by the dispatch loop. -/
theorem drop_take_perm (q : List QueueItem) (k : Nat) (disp : List Nat) :
    List.Perm
      ((q.drop k).map QueueItem.id ++ (disp ++ (q.take k).map QueueItem.id))
      (q.map QueueItem.id ++ disp) := by
  have hsplit : q.map QueueItem.id =
      (q.take k).map QueueItem.id ++ (q.drop k).map QueueItem.id := by
    rw [← List.map_append, List.take_append_drop]
  refine List.Perm.trans
    (List.Perm.append_left _ (List.perm_append_comm)) ?_
  rw [← List.append_assoc, hsplit]
  exact List.Perm.append_right _ (List.perm_append_comm)

/-- The insertion scan places the new item immediately before the first
pending item of strictly lower priority: the queue splits as the maximal
front run of items with priority at least the new one, then the new item,
then the rest. -/
theorem insertByPriority_eq (item : QueueItem) (q : List QueueItem) :
    insertByPriority item q =
      q.takeWhile (fun x => !(decide (x.priority < item.priority))) ++
        item :: q.dropWhile (fun x => !(decide (x.priority < item.priority)))
    := by
  induction q with
  | nil => rfl
  | cons x rest ih =>
    by_cases h : x.priority < item.priority
    · simp [insertByPriority, h, List.takeWhile_cons, List.dropWhile_cons]
    · simp [insertByPriority, h, List.takeWhile_cons, List.dropWhile_cons, ih]

theorem mem_insertByPriority {item y : QueueItem} {q : List QueueItem} :
    y ∈ insertByPriority item q ↔ y = item ∨ y ∈ q := by
  rw [insertByPriority_eq]
  constructor
  · intro h
    rcases List.mem_append.mp h with hA | hB
    · exact Or.inr ((List.takeWhile_sublist _).subset hA)
    · rcases List.mem_cons.mp hB with rfl | hB'
      · exact Or.inl rfl
      · exact Or.inr ((List.dropWhile_sublist _).subset hB')
  · intro h
    rcases h with rfl | hq
    · exact List.mem_append_right _ (List.mem_cons_self _ _)
    · rw [← List.takeWhile_append_dropWhile
        (p := fun x => !(decide (x.priority < item.priority))) (l := q)]
        at hq
      rcases List.mem_append.mp hq with hA | hB
      · exact List.mem_append_left _ hA
      · exact List.mem_append_right _ (List.mem_cons_of_mem _ hB)

theorem perm_insertByPriority (item : QueueItem) (q : List QueueItem) :
    List.Perm ((insertByPriority item q).map QueueItem.id)
      (item.id :: q.map QueueItem.id) := by
  rw [insertByPriority_eq, List.map_append, List.map_cons]
  refine (List.perm_middle).trans ?_
  rw [← List.map_append, List.takeWhile_append_dropWhile]

theorem insertByPriority_sorted (item : QueueItem) {q : List QueueItem}
    (h : q.Pairwise (fun a b => b.priority ≤ a.priority)) :
    (insertByPriority item q).Pairwise (fun a b => b.priority ≤ a.priority)
    := by
  induction q with
  | nil => simp [insertByPriority]
  | cons x rest ih =>
    rcases List.pairwise_cons.mp h with ⟨hx, hrest⟩
    by_cases hlt : x.priority < item.priority
    · simp only [insertByPriority, if_pos hlt]
      refine List.pairwise_cons.mpr ⟨?_, h⟩
      intro y hy
      rcases List.mem_cons.mp hy with rfl | hy'
      · exact le_of_lt hlt
      · exact le_trans (hx y hy') (le_of_lt hlt)
    · simp only [insertByPriority, if_neg hlt]
      refine List.pairwise_cons.mpr ⟨?_, ih hrest⟩
      intro y hy
      rcases mem_insertByPriority.mp hy with rfl | hy'
      · exact not_lt.mp hlt
      · exact hx y hy'

end Sched

namespace Sched

/-- The scheduler invariant: not mid-dispatch at event boundaries, the
active count agrees with the running set and respects the limit, every
task identity occurs at most once across the pending queue and the
dispatch history, identities are below the fresh-id counter, and the
pending queue is ordered by descending priority. -/
def QInv (maxConcurrent : Nat) (s : QState) : Prop :=
  s.isProcessing = false ∧
  s.activeWorkers = s.running.length ∧
  s.activeWorkers ≤ maxConcurrent ∧
  ((s.queue.map QueueItem.id) ++ s.dispatched).Nodup ∧
  (∀ i ∈ (s.queue.map QueueItem.id) ++ s.dispatched, i < s.nextId) ∧
  s.queue.Pairwise (fun a b => b.priority ≤ a.priority)

theorem processQueue_eq (maxConcurrent : Nat) (s : QState)
    (hg : ¬ (s.isProcessing = true ∨ maxConcurrent ≤ s.activeWorkers)) :
    ∃ k, k ≤ s.queue.length ∧
      processQueue maxConcurrent s =
        { s with
            queue := s.queue.drop k
            activeWorkers := s.activeWorkers + k
            running := s.running ++ (s.queue.take k).map QueueItem.id
            dispatched := s.dispatched ++ (s.queue.take k).map QueueItem.id
            isProcessing := false } := by
  obtain ⟨k, hk, heq⟩ := dispatchLoop_shape maxConcurrent s.queue
    s.activeWorkers s.running s.dispatched
  refine ⟨k, hk, ?_⟩
  unfold processQueue
  rw [if_neg hg, heq]

theorem processQueue_id_of_guard (maxConcurrent : Nat) (s : QState)
    (hg : s.isProcessing = true ∨ maxConcurrent ≤ s.activeWorkers) :
    processQueue maxConcurrent s = s := by
  unfold processQueue
  rw [if_pos hg]

/-- Dispatch only ever removes a front segment of the pending queue, and
appends exactly that segment's ids to the dispatch history. -/
theorem processQueue_front (maxConcurrent : Nat) (s : QState) :
    ∃ k, (processQueue maxConcurrent s).queue = s.queue.drop k ∧
      (processQueue maxConcurrent s).dispatched =
        s.dispatched ++ (s.queue.take k).map QueueItem.id := by
  by_cases hg : s.isProcessing = true ∨ maxConcurrent ≤ s.activeWorkers
  · exact ⟨0, by simp [processQueue_id_of_guard maxConcurrent s hg]⟩
  · obtain ⟨k, _, heq⟩ := processQueue_eq maxConcurrent s hg
    exact ⟨k, by rw [heq], by rw [heq]⟩

theorem qinv_processQueue {maxConcurrent : Nat} {s : QState}
    (h : QInv maxConcurrent s) : QInv maxConcurrent (processQueue maxConcurrent s) := by
  obtain ⟨hip, hact, hle, hnd, hbound, hsort⟩ := h
  by_cases hg : s.isProcessing = true ∨ maxConcurrent ≤ s.activeWorkers
  · rw [processQueue_id_of_guard maxConcurrent s hg]
    exact ⟨hip, hact, hle, hnd, hbound, hsort⟩
  · obtain ⟨k, hk, heq⟩ := dispatchLoop_shape maxConcurrent s.queue
      s.activeWorkers s.running s.dispatched
    have hactle := dispatchLoop_active_le maxConcurrent s.queue
      s.activeWorkers s.running s.dispatched hle
    rw [heq] at hactle
    dsimp only at hactle
    have hperm := drop_take_perm s.queue k s.dispatched
    unfold processQueue
    rw [if_neg hg, heq]
    dsimp only
    refine ⟨rfl, ?_, hactle, ?_, ?_, ?_⟩
    · simp only [List.length_append, List.length_map, List.length_take,
        Nat.min_eq_left hk, hact]
    · exact (hperm.symm).nodup hnd
    · intro i hi
      exact hbound i (hperm.mem_iff.mp hi)
    · exact hsort.sublist (List.drop_sublist _ _)

theorem qinv_enqueue {maxConcurrent : Nat} {s : QState} (p : Int)
    (h : QInv maxConcurrent s) : QInv maxConcurrent (enqueue maxConcurrent p s) := by
  obtain ⟨hip, hact, hle, hnd, hbound, hsort⟩ := h
  simp only [enqueue]
  apply qinv_processQueue
  have hpermq := perm_insertByPriority
    { id := s.nextId, priority := p } s.queue
  have hP : List.Perm
      ((insertByPriority { id := s.nextId, priority := p } s.queue).map
          QueueItem.id ++ s.dispatched)
      (s.nextId :: (s.queue.map QueueItem.id ++ s.dispatched)) := by
    refine (hpermq.append_right s.dispatched).trans ?_
    rw [List.cons_append]
  refine ⟨hip, hact, hle, ?_, ?_, ?_⟩
  · apply hP.symm.nodup
    refine List.nodup_cons.mpr ⟨?_, hnd⟩
    intro hmem
    exact absurd (hbound _ hmem) (lt_irrefl _)
  · intro i hi
    dsimp only
    rcases List.mem_cons.mp (hP.mem_iff.mp hi) with rfl | hold
    · omega
    · have := hbound i hold
      omega
  · exact insertByPriority_sorted _ hsort

theorem qinv_settleTask {maxConcurrent : Nat} {s : QState} (tid : Nat)
    (success : Bool) (h : QInv maxConcurrent s) :
    QInv maxConcurrent (settleTask maxConcurrent tid success s) := by
  obtain ⟨hip, hact, hle, hnd, hbound, hsort⟩ := h
  unfold settleTask
  by_cases hmem : tid ∈ s.running
  · rw [if_pos hmem]
    apply qinv_processQueue
    refine ⟨rfl, ?_, ?_, hnd, hbound, hsort⟩
    · dsimp only
      rw [List.length_erase_of_mem hmem, hact]
    · dsimp only
      omega
  · rw [if_neg hmem]
    exact ⟨hip, hact, hle, hnd, hbound, hsort⟩

theorem qinv_runQ (maxConcurrent : Nat) (events : List QEvent) :
    QInv maxConcurrent (runQ maxConcurrent events) := by
  have hinit : QInv maxConcurrent initQ := by
    refine ⟨rfl, rfl, ?_, ?_, ?_, ?_⟩ <;> simp [initQ]
  rw [runQ]
  have hfold : ∀ (es : List QEvent) (s : QState), QInv maxConcurrent s →
      QInv maxConcurrent (es.foldl (qstep maxConcurrent) s) := by
    intro es
    induction es with
    | nil => intro s h; exact h
    | cons e rest ih =>
      intro s h
      cases e with
      | submit p => exact ih _ (qinv_enqueue p h)
      | settle tid ok => exact ih _ (qinv_settleTask tid ok h)
  exact hfold events _ hinit

end Sched

/-- C4: for every pattern of task submissions and completions, the
scheduler's active-operation count never exceeds maxConcurrent, and no
submitted task is ever dispatched (started) more than once: the dispatch
history, which records every started task identity in order, is free of
duplicates. -/
theorem claim_C4_concurrency_bound (maxConcurrent : Nat)
    (events : List Sched.QEvent) :
    (Sched.runQ maxConcurrent events).activeWorkers ≤ maxConcurrent ∧
    (Sched.runQ maxConcurrent events).dispatched.Nodup := by
  obtain ⟨_, _, hle, hnd, _, _⟩ := Sched.qinv_runQ maxConcurrent events
  exact ⟨hle, hnd.of_append_right⟩

/-- C5: a newly submitted task is inserted immediately before the first
pending task of strictly lower priority (appended at the back otherwise),
so the pending queue is always ordered by descending priority, ties keep
submission (FIFO) order, and dispatch always removes a front segment of
the pending queue, appending exactly those tasks, in order, to the
dispatch history. -/
theorem claim_C5_priority_order (maxConcurrent : Nat)
    (events : List Sched.QEvent) (item : Sched.QueueItem)
    (q : List Sched.QueueItem) (s : Sched.QState) :
    Sched.insertByPriority item q =
      q.takeWhile (fun x => !(decide (x.priority < item.priority))) ++
        item :: q.dropWhile (fun x => !(decide (x.priority < item.priority)))
    ∧
    (Sched.runQ maxConcurrent events).queue.Pairwise
      (fun a b => b.priority ≤ a.priority) ∧
    (∃ k, (Sched.processQueue maxConcurrent s).queue = s.queue.drop k ∧
      (Sched.processQueue maxConcurrent s).dispatched =
        s.dispatched ++ (s.queue.take k).map Sched.QueueItem.id) := by
  refine ⟨Sched.insertByPriority_eq item q, ?_, Sched.processQueue_front
    maxConcurrent s⟩
  obtain ⟨_, _, _, _, _, hsort⟩ := Sched.qinv_runQ maxConcurrent events
  exact hsort

namespace Rate

/-- RateLimitConfig: maxRequests, timeWindow (ms), burstCapacity,
burstWindow (ms). -/
structure RateLimitConfig where
  maxRequests : Nat
  timeWindow : Int
  burstCapacity : Nat
  burstWindow : Int
deriving DecidableEq, Repr

/-- RateLimitResult returned by isAllowed. -/
structure RateLimitResult where
  allowed : Bool
  retryAfter : Int
  remaining : Int
  limit : Nat
  reset : Int
deriving DecidableEq, Repr

/-- RateLimitData: the per-client sustained and burst timestamp lists. -/
structure RateLimitData where
  timestamps : List Int
  burstTimestamps : List Int
deriving DecidableEq, Repr

/-- Math.min over a spread of timestamps; the zero default is never
reached because the deny branches only evaluate it on a list whose length
is at least the (positive) capacity. -/
def listMin : List Int → Int
  | [] => 0
  | x :: xs => xs.foldl min x

/-- Math.ceil(x / 1000) on integer milliseconds. -/
def ceilDiv1000 (x : Int) : Int := -((-x).fdiv 1000)

/-- isAllowed: prune both timestamp lists to their windows, deny on burst
overflow first, then on sustained overflow, else record now in both lists
and allow.  The updated per-client record is returned alongside the
decision (the source mutates the stored record in place). -/
def isAllowed (cfg : RateLimitConfig) (data : RateLimitData) (now : Int) :
    RateLimitResult × RateLimitData :=
  let ts := data.timestamps.filter (fun t => now - t < cfg.timeWindow)
  let bts := data.burstTimestamps.filter (fun t => now - t < cfg.burstWindow)
  if cfg.burstCapacity ≤ bts.length then
    let oldest := listMin bts
    let retryAfter := ceilDiv1000 (oldest + cfg.burstWindow - now)
    ({ allowed := false, retryAfter := retryAfter, limit := cfg.maxRequests,
       remaining := 0, reset := now + retryAfter * 1000 },
      { timestamps := ts, burstTimestamps := bts })
  else if cfg.maxRequests ≤ ts.length then
    let oldest := listMin ts
    let retryAfter := ceilDiv1000 (oldest + cfg.timeWindow - now)
    ({ allowed := false, retryAfter := retryAfter, limit := cfg.maxRequests,
       remaining := 0, reset := now + retryAfter * 1000 },
      { timestamps := ts, burstTimestamps := bts })
  else
    let ts' := ts ++ [now]
    let bts' := bts ++ [now]
    ({ allowed := true, retryAfter := 0, limit := cfg.maxRequests,
       remaining := max 0 ((cfg.maxRequests : Int) - ts'.length),
       reset := now + cfg.timeWindow },
      { timestamps := ts', burstTimestamps := bts' })

theorem ceilDiv1000_le_iff (x n : Int) :
    ceilDiv1000 x ≤ n ↔ x ≤ n * 1000 := by
  unfold ceilDiv1000
  rw [Int.fdiv_eq_ediv _ (by norm_num), neg_le,
    Int.le_ediv_iff_mul_le (by norm_num)]
  omega

theorem listMin_aux : ∀ (xs : List Int) (x : Int),
    (xs.foldl min x = x ∨ xs.foldl min x ∈ xs) ∧ xs.foldl min x ≤ x ∧
    ∀ t ∈ xs, xs.foldl min x ≤ t := by
  intro xs
  induction xs with
  | nil =>
    intro x
    refine ⟨Or.inl rfl, le_refl x, ?_⟩
    intro t ht
    exact absurd ht (List.not_mem_nil t)
  | cons y ys ih =>
    intro x
    obtain ⟨hmem, hle, hall⟩ := ih (min x y)
    simp only [List.foldl_cons]
    refine ⟨?_, ?_, ?_⟩
    · rcases hmem with heq | hm
      · rcases min_choice x y with hxy | hxy
        · exact Or.inl (heq.trans hxy)
        · refine Or.inr ?_
          rw [heq, hxy]
          exact List.mem_cons_self y ys
      · exact Or.inr (List.mem_cons_of_mem y hm)
    · exact le_trans hle (min_le_left x y)
    · intro t ht
      rcases List.mem_cons.mp ht with rfl | ht'
      · exact le_trans hle (min_le_right x t)
      · exact hall t ht'

theorem listMin_mem {l : List Int} (h : l ≠ []) : listMin l ∈ l := by
  cases l with
  | nil => exact absurd rfl h
  | cons x xs =>
    obtain ⟨hmem, _, _⟩ := listMin_aux xs x
    rcases hmem with heq | hm
    · rw [listMin, heq]; exact List.mem_cons_self x xs
    · exact List.mem_cons_of_mem x hm

theorem listMin_le {l : List Int} (t : Int) (ht : t ∈ l) : listMin l ≤ t := by
  cases l with
  | nil => exact absurd ht (List.not_mem_nil t)
  | cons x xs =>
    obtain ⟨_, hle, hall⟩ := listMin_aux xs x
    rcases List.mem_cons.mp ht with rfl | ht'
    · exact hle
    · exact hall t ht'

end Rate

/-- C6: every check first prunes both timestamp lists to their windows
relative to now; a pruned burst list already holding burstCapacity
entries denies with remaining 0 and retryAfter the least whole number of
seconds until the oldest burst timestamp exits the burst window,
regardless of the sustained list (the burst check is evaluated first); a
burst-ok call whose pruned sustained list already holds maxRequests
entries denies the same way against the sustained window; otherwise now
is recorded in both lists and the call is allowed with
remaining = maxRequests - sustainedCount and reset = now + timeWindow. -/
theorem claim_C6_dual_window_rate_limit (cfg : Rate.RateLimitConfig)
    (d1 d2 d3 : Rate.RateLimitData) (n1 n2 n3 : Int)
    (hc1 : cfg.burstCapacity ≤
      (d1.burstTimestamps.filter (fun t => n1 - t < cfg.burstWindow)).length)
    (hb1 : 1 ≤ cfg.burstCapacity)
    (hc2a : (d2.burstTimestamps.filter
      (fun t => n2 - t < cfg.burstWindow)).length < cfg.burstCapacity)
    (hc2b : cfg.maxRequests ≤
      (d2.timestamps.filter (fun t => n2 - t < cfg.timeWindow)).length)
    (hm2 : 1 ≤ cfg.maxRequests)
    (hc3a : (d3.burstTimestamps.filter
      (fun t => n3 - t < cfg.burstWindow)).length < cfg.burstCapacity)
    (hc3b : (d3.timestamps.filter
      (fun t => n3 - t < cfg.timeWindow)).length < cfg.maxRequests) :
    ((Rate.isAllowed cfg d1 n1).1.allowed = false ∧
      (Rate.isAllowed cfg d1 n1).1.remaining = 0 ∧
      (Rate.isAllowed cfg d1 n1).2.timestamps =
        d1.timestamps.filter (fun t => n1 - t < cfg.timeWindow) ∧
      (Rate.isAllowed cfg d1 n1).2.burstTimestamps =
        d1.burstTimestamps.filter (fun t => n1 - t < cfg.burstWindow) ∧
      (∃ m, m ∈ d1.burstTimestamps.filter
          (fun t => n1 - t < cfg.burstWindow) ∧
        (∀ t ∈ d1.burstTimestamps.filter
          (fun t => n1 - t < cfg.burstWindow), m ≤ t) ∧
        m + cfg.burstWindow - n1 ≤
          (Rate.isAllowed cfg d1 n1).1.retryAfter * 1000 ∧
        ∀ n : Int, m + cfg.burstWindow - n1 ≤ n * 1000 →
          (Rate.isAllowed cfg d1 n1).1.retryAfter ≤ n)) ∧
    ((Rate.isAllowed cfg d2 n2).1.allowed = false ∧
      (Rate.isAllowed cfg d2 n2).1.remaining = 0 ∧
      (∃ m, m ∈ d2.timestamps.filter (fun t => n2 - t < cfg.timeWindow) ∧
        (∀ t ∈ d2.timestamps.filter
          (fun t => n2 - t < cfg.timeWindow), m ≤ t) ∧
        m + cfg.timeWindow - n2 ≤
          (Rate.isAllowed cfg d2 n2).1.retryAfter * 1000 ∧
        ∀ n : Int, m + cfg.timeWindow - n2 ≤ n * 1000 →
          (Rate.isAllowed cfg d2 n2).1.retryAfter ≤ n)) ∧
    ((Rate.isAllowed cfg d3 n3).1.allowed = true ∧
      (Rate.isAllowed cfg d3 n3).2.timestamps =
        d3.timestamps.filter (fun t => n3 - t < cfg.timeWindow) ++ [n3] ∧
      (Rate.isAllowed cfg d3 n3).2.burstTimestamps =
        d3.burstTimestamps.filter (fun t => n3 - t < cfg.burstWindow)
          ++ [n3] ∧
      (Rate.isAllowed cfg d3 n3).1.remaining =
        (cfg.maxRequests : Int) -
          ((d3.timestamps.filter
            (fun t => n3 - t < cfg.timeWindow)).length + 1) ∧
      (Rate.isAllowed cfg d3 n3).1.reset = n3 + cfg.timeWindow ∧
      (Rate.isAllowed cfg d3 n3).1.retryAfter = 0) := by
  refine ⟨?_, ?_, ?_⟩
  · -- burst denial
    have hne : d1.burstTimestamps.filter
        (fun t => n1 - t < cfg.burstWindow) ≠ [] := by
      intro hnil
      rw [hnil] at hc1
      simp at hc1
      omega
    simp only [Rate.isAllowed, if_pos hc1]
    refine ⟨trivial, trivial, trivial, trivial,
      Rate.listMin (d1.burstTimestamps.filter
        (fun t => n1 - t < cfg.burstWindow)), Rate.listMin_mem hne,
      fun t ht => Rate.listMin_le t ht, ?_, ?_⟩
    · exact (Rate.ceilDiv1000_le_iff _ _).mp (le_refl _)
    · intro n hn
      exact (Rate.ceilDiv1000_le_iff _ _).mpr hn
  · -- sustained denial after a passing burst check
    have hg1 : ¬ cfg.burstCapacity ≤ (d2.burstTimestamps.filter
        (fun t => n2 - t < cfg.burstWindow)).length := not_le.mpr hc2a
    have hne : d2.timestamps.filter
        (fun t => n2 - t < cfg.timeWindow) ≠ [] := by
      intro hnil
      rw [hnil] at hc2b
      simp at hc2b
      omega
    simp only [Rate.isAllowed, if_neg hg1, if_pos hc2b]
    refine ⟨trivial, trivial,
      Rate.listMin (d2.timestamps.filter
        (fun t => n2 - t < cfg.timeWindow)), Rate.listMin_mem hne,
      fun t ht => Rate.listMin_le t ht, ?_, ?_⟩
    · exact (Rate.ceilDiv1000_le_iff _ _).mp (le_refl _)
    · intro n hn
      exact (Rate.ceilDiv1000_le_iff _ _).mpr hn
  · -- allowed
    have hg1 : ¬ cfg.burstCapacity ≤ (d3.burstTimestamps.filter
        (fun t => n3 - t < cfg.burstWindow)).length := not_le.mpr hc3a
    have hg2 : ¬ cfg.maxRequests ≤ (d3.timestamps.filter
        (fun t => n3 - t < cfg.timeWindow)).length := not_le.mpr hc3b
    simp only [Rate.isAllowed, if_neg hg1, if_neg hg2]
    refine ⟨trivial, trivial, trivial, ?_, trivial, trivial⟩
    simp only [List.length_append, List.length_cons, List.length_nil]
    rw [max_eq_right]
    · push_cast
      ring
    · push_cast
      omega

/-- The rate limiter configuration of the application: 10 requests per
minute sustained, 5 per 10 seconds burst. -/
def rcfgW : Rate.RateLimitConfig :=
  { maxRequests := 10, timeWindow := 60000, burstCapacity := 5,
    burstWindow := 10000 }

/-- Client data with a full burst window at now = 500. -/
def rd1 : Rate.RateLimitData :=
  { timestamps := [0, 100, 200, 300, 400],
    burstTimestamps := [0, 100, 200, 300, 400] }

/-- Client data with an exhausted sustained window but a clear burst
window at now = 15000. -/
def rd2 : Rate.RateLimitData :=
  { timestamps := [0, 100, 200, 300, 400, 500, 600, 700, 800, 900],
    burstTimestamps := [0] }

/-- A fresh client. -/
def rd3 : Rate.RateLimitData :=
  { timestamps := [], burstTimestamps := [] }

/-- Witness for C6: a burst denial at now = 500, a sustained denial at
now = 15000, and an allowed fresh request at now = 0. -/
theorem claim_C6_dual_window_rate_limit_witness :
    (rcfgW.burstCapacity ≤ (rd1.burstTimestamps.filter
        (fun t => 500 - t < rcfgW.burstWindow)).length ∧
      1 ≤ rcfgW.burstCapacity ∧
      (rd2.burstTimestamps.filter
        (fun t => 15000 - t < rcfgW.burstWindow)).length <
          rcfgW.burstCapacity ∧
      rcfgW.maxRequests ≤ (rd2.timestamps.filter
        (fun t => 15000 - t < rcfgW.timeWindow)).length ∧
      1 ≤ rcfgW.maxRequests ∧
      (rd3.burstTimestamps.filter
        (fun t => (0 : Int) - t < rcfgW.burstWindow)).length <
          rcfgW.burstCapacity ∧
      (rd3.timestamps.filter
        (fun t => (0 : Int) - t < rcfgW.timeWindow)).length <
          rcfgW.maxRequests) ∧
    (((Rate.isAllowed rcfgW rd1 500).1.allowed = false ∧
      (Rate.isAllowed rcfgW rd1 500).1.remaining = 0 ∧
      (Rate.isAllowed rcfgW rd1 500).2.timestamps =
        rd1.timestamps.filter (fun t => 500 - t < rcfgW.timeWindow) ∧
      (Rate.isAllowed rcfgW rd1 500).2.burstTimestamps =
        rd1.burstTimestamps.filter (fun t => 500 - t < rcfgW.burstWindow) ∧
      (∃ m, m ∈ rd1.burstTimestamps.filter
          (fun t => 500 - t < rcfgW.burstWindow) ∧
        (∀ t ∈ rd1.burstTimestamps.filter
          (fun t => 500 - t < rcfgW.burstWindow), m ≤ t) ∧
        m + rcfgW.burstWindow - 500 ≤
          (Rate.isAllowed rcfgW rd1 500).1.retryAfter * 1000 ∧
        ∀ n : Int, m + rcfgW.burstWindow - 500 ≤ n * 1000 →
          (Rate.isAllowed rcfgW rd1 500).1.retryAfter ≤ n)) ∧
    ((Rate.isAllowed rcfgW rd2 15000).1.allowed = false ∧
      (Rate.isAllowed rcfgW rd2 15000).1.remaining = 0 ∧
      (∃ m, m ∈ rd2.timestamps.filter
          (fun t => 15000 - t < rcfgW.timeWindow) ∧
        (∀ t ∈ rd2.timestamps.filter
          (fun t => 15000 - t < rcfgW.timeWindow), m ≤ t) ∧
        m + rcfgW.timeWindow - 15000 ≤
          (Rate.isAllowed rcfgW rd2 15000).1.retryAfter * 1000 ∧
        ∀ n : Int, m + rcfgW.timeWindow - 15000 ≤ n * 1000 →
          (Rate.isAllowed rcfgW rd2 15000).1.retryAfter ≤ n)) ∧
    ((Rate.isAllowed rcfgW rd3 0).1.allowed = true ∧
      (Rate.isAllowed rcfgW rd3 0).2.timestamps =
        rd3.timestamps.filter (fun t => (0 : Int) - t < rcfgW.timeWindow)
          ++ [0] ∧
      (Rate.isAllowed rcfgW rd3 0).2.burstTimestamps =
        rd3.burstTimestamps.filter (fun t => (0 : Int) - t < rcfgW.burstWindow)
          ++ [0] ∧
      (Rate.isAllowed rcfgW rd3 0).1.remaining =
        (rcfgW.maxRequests : Int) -
          ((rd3.timestamps.filter
            (fun t => (0 : Int) - t < rcfgW.timeWindow)).length + 1) ∧
      (Rate.isAllowed rcfgW rd3 0).1.reset = 0 + rcfgW.timeWindow ∧
      (Rate.isAllowed rcfgW rd3 0).1.retryAfter = 0)) :=
  ⟨⟨by decide, by decide, by decide, by decide, by decide, by decide,
      by decide⟩,
    claim_C6_dual_window_rate_limit rcfgW rd1 rd2 rd3 500 15000 0
      (by decide) (by decide) (by decide) (by decide) (by decide)
      (by decide) (by decide)⟩

namespace Flight

/-- The state relevant to getOrSet: the cache closure state plus the
pendingFetches Map.  Each in-flight fetch is identified by a number
standing for the promise object registered for its key; nextFetchId is
the source of fresh identities and supplierRuns counts how many times a
supplier (fetchFn) has been invoked (observational history needed to
state the single-flight claims). -/
structure FlightState (T : Type) where
  cacheSt : Cache.State T
  pending : List (String × Nat)
  nextFetchId : Nat
  supplierRuns : Nat
deriving DecidableEq, Repr

/-- pendingFetches.get on the association list. -/
def pendingGet (p : List (String × Nat)) (k : String) : Option Nat :=
  (p.find? (fun q => q.1 == k)).map Prod.snd

/-- pendingFetches.delete. -/
def pendingDelete (p : List (String × Nat)) (k : String) :
    List (String × Nat) :=
  p.filter (fun q => q.1 != k)

/-- What a getOrSet caller holds when its synchronous segment ends:
the in-flight promise it joined, a cached value returned immediately, or
the promise of the fetch it started itself. -/
inductive GosView (T : Type) where
  | joined (fid : Nat)
  | hitValue (v : T)
  | started (fid : Nat)
deriving DecidableEq, Repr

/-- The synchronous segment of one getOrSet call, which under the
cooperative event-loop model runs atomically up to the first await: an
in-flight fetch for the key is returned to the caller as is; otherwise a
cache hit is returned after recording the (zero, same-tick) latency;
otherwise the supplier is invoked and the new fetch is registered in
pendingFetches before control is yielded. -/
def gosStart (s : FlightState T) (k : String) (now : Nat) :
    FlightState T × GosView T :=
  match pendingGet s.pending k with
  | some fid => (s, .joined fid)
  | none =>
    match Cache.get s.cacheSt k now with
    | (c', some v) =>
      ({ s with cacheSt := Cache.updateStats c' 0 }, .hitValue v)
    | (c', none) =>
      ({ cacheSt := c'
         pending := s.pending ++ [(k, s.nextFetchId)]
         nextFetchId := s.nextFetchId + 1
         supplierRuns := s.supplierRuns + 1 }, .started s.nextFetchId)

/-- The segment that runs when the fetch registered for a key settles: on
success the result is stored through set (sized by calculateSize) and the
in-flight registration is removed, then the starting caller records its
latency; on failure only the registration is removed and nothing is
cached. -/
def gosSettle (cfg : Cache.Config) (calcSize : T → Nat) (s : FlightState T)
    (k : String) (customTtl : Option Nat) (outcome : Except E T) (now : Nat)
    (elapsed : Nat) : FlightState T :=
  match outcome with
  | .ok v =>
    { s with
        cacheSt := Cache.updateStats
          (Cache.set cfg calcSize s.cacheSt k v customTtl
            (some (calcSize v)) now) elapsed
        pending := pendingDelete s.pending k }
  | .error _ =>
    { s with pending := pendingDelete s.pending k }

/-- N back-to-back synchronous getOrSet segments for the same key (the
shape of N concurrent callers racing on one key: under the cooperative
model their synchronous segments are serialized before any fetch can
settle). -/
def gosStartN (k : String) (now : Nat) :
    Nat → FlightState T → FlightState T × List (GosView T)
  | 0, s => (s, [])
  | n + 1, s =>
    match gosStart s k now with
    | (s', v) =>
      match gosStartN k now n s' with
      | (s'', vs) => (s'', v :: vs)

/-- The outcome a caller eventually observes, given the settlement of
each fetch: a cached value immediately, or the settled outcome of the
fetch whose promise the caller holds. -/
def observeOutcome (settled : Nat → Except E T) : GosView T → Except E T
  | .hitValue v => .ok v
  | .joined fid => settled fid
  | .started fid => settled fid

theorem pendingGet_append_self {p : List (String × Nat)} {k : String}
    (h : pendingGet p k = none) (fid : Nat) :
    pendingGet (p ++ [(k, fid)]) k = some fid := by
  induction p with
  | nil => simp [pendingGet]
  | cons q rest ih =>
    by_cases hq : q.1 = k
    · exfalso
      simp [pendingGet, List.find?_cons, hq] at h
    · have hb : (q.1 == k) = false := by simp [hq]
      simp only [pendingGet, List.find?_cons, hb, List.cons_append] at h ⊢
      exact ih h

theorem pendingGet_pendingDelete {p : List (String × Nat)} (k : String) :
    pendingGet (pendingDelete p k) k = none := by
  induction p with
  | nil => rfl
  | cons q rest ih =>
    by_cases hq : q.1 = k
    · simp only [pendingDelete, List.filter_cons, hq, bne_self_eq_false,
        Bool.false_eq_true, if_false] at ih ⊢
      exact ih
    · have hb : (q.1 != k) = true := by simp [hq]
      have hbeq : (q.1 == k) = false := by simp [hq]
      simp only [pendingDelete, List.filter_cons, hb, if_true, pendingGet,
        List.find?_cons, hbeq] at ih ⊢
      exact ih

/-- Once a fetch for the key is registered, further getOrSet segments
leave the state untouched and all join the same fetch. -/
theorem gosStartN_joined {s : FlightState T} {k : String} {f : Nat}
    (now : Nat) (h : pendingGet s.pending k = some f) :
    ∀ m, gosStartN k now m s = (s, List.replicate m (GosView.joined f)) := by
  intro m
  induction m with
  | zero => rfl
  | succ n ih =>
    simp only [gosStartN, gosStart, h, ih, List.replicate_succ]

end Flight

/-- C3: when N concurrent getOrSet calls race on one key that has no live
entry and no in-flight fetch, the supplier is invoked exactly once: the
first caller starts fetch f and registers it, every later caller joins
that same fetch f, and whatever way f settles, every caller observes that
one settled outcome. -/
theorem claim_C3_single_flight {T E : Type} (s0 : Flight.FlightState T)
    (k : String) (now : Nat) (N : Nat) (hN : 1 ≤ N)
    (hpend : Flight.pendingGet s0.pending k = none)
    (hmiss : (Cache.get s0.cacheSt k now).2 = none) :
    (Flight.gosStartN k now N s0).1.supplierRuns = s0.supplierRuns + 1 ∧
    (Flight.gosStartN k now N s0).2 =
      Flight.GosView.started s0.nextFetchId ::
        List.replicate (N - 1) (Flight.GosView.joined s0.nextFetchId) ∧
    ∀ (settled : Nat → Except E T),
      ∀ v ∈ (Flight.gosStartN k now N s0).2,
        Flight.observeOutcome settled v = settled s0.nextFetchId := by
  obtain ⟨m, rfl⟩ : ∃ m, N = m + 1 := ⟨N - 1, by omega⟩
  have hstart : Flight.gosStart s0 k now =
      ({ cacheSt := (Cache.get s0.cacheSt k now).1
         pending := s0.pending ++ [(k, s0.nextFetchId)]
         nextFetchId := s0.nextFetchId + 1
         supplierRuns := s0.supplierRuns + 1 },
        Flight.GosView.started s0.nextFetchId) := by
    unfold Flight.gosStart
    rw [hpend]
    cases hget : Cache.get s0.cacheSt k now with
    | mk c' res =>
      rw [hget] at hmiss
      simp only at hmiss
      subst hmiss
      rfl
  have hp1 : Flight.pendingGet (s0.pending ++ [(k, s0.nextFetchId)]) k =
      some s0.nextFetchId := Flight.pendingGet_append_self hpend _
  have hrest := Flight.gosStartN_joined
    (s := { cacheSt := (Cache.get s0.cacheSt k now).1
            pending := s0.pending ++ [(k, s0.nextFetchId)]
            nextFetchId := s0.nextFetchId + 1
            supplierRuns := s0.supplierRuns + 1 }) now hp1 m
  have hrun : Flight.gosStartN k now (m + 1) s0 =
      ({ cacheSt := (Cache.get s0.cacheSt k now).1
         pending := s0.pending ++ [(k, s0.nextFetchId)]
         nextFetchId := s0.nextFetchId + 1
         supplierRuns := s0.supplierRuns + 1 },
        Flight.GosView.started s0.nextFetchId ::
          List.replicate m (Flight.GosView.joined s0.nextFetchId)) := by
    simp only [Flight.gosStartN, hstart, hrest]
  refine ⟨by rw [hrun], by rw [hrun]; simp, ?_⟩
  intro settled v hv
  rw [hrun] at hv
  rcases List.mem_cons.mp hv with rfl | hv'
  · rfl
  · rw [List.eq_of_mem_replicate hv']
    rfl

/-- The initial getOrSet state: empty cache, nothing in flight. -/
def flight0 : Flight.FlightState Nat :=
  { cacheSt := Cache.initState Nat, pending := [], nextFetchId := 0,
    supplierRuns := 0 }

/-- Witness for C3: three concurrent callers on an empty cache start one
fetch and all observe its outcome. -/
theorem claim_C3_single_flight_witness :
    (1 ≤ 3 ∧ Flight.pendingGet flight0.pending keyA = none ∧
      (Cache.get flight0.cacheSt keyA 0).2 = none) ∧
    ((Flight.gosStartN keyA 0 3 flight0).1.supplierRuns =
        flight0.supplierRuns + 1 ∧
      (Flight.gosStartN keyA 0 3 flight0).2 =
        Flight.GosView.started flight0.nextFetchId ::
          List.replicate (3 - 1) (Flight.GosView.joined flight0.nextFetchId) ∧
      ∀ (settled : Nat → Except String Nat),
        ∀ v ∈ (Flight.gosStartN keyA 0 3 flight0).2,
          Flight.observeOutcome settled v = settled flight0.nextFetchId) :=
  ⟨⟨by decide, rfl, rfl⟩,
    claim_C3_single_flight flight0 keyA 0 3 (by decide) rfl rfl⟩

/-- C9: when the fetch registered by getOrSet settles with a failure, the
cache state is completely untouched (no entry is stored), the in-flight
registration for the key is removed — exactly as it is on success — so a
later lookup finds nothing in flight, the failure value reaches every
caller holding that fetch unchanged, and the next getOrSet for the key
(still a cache miss) invokes the supplier again. -/
theorem claim_C9_failure_not_cached {T E : Type} (cfg : Cache.Config)
    (calcSize : T → Nat) (s : Flight.FlightState T) (k : String)
    (customTtl : Option Nat) (e : E) (v : T)
    (now now' elapsed elapsed2 : Nat)
    (hmiss : Cache.mapGet s.cacheSt.cache k = none) :
    (Flight.gosSettle cfg calcSize s k customTtl (Except.error e) now
      elapsed).cacheSt = s.cacheSt ∧
    (Flight.gosSettle cfg calcSize s k customTtl (Except.error e) now
      elapsed).pending = Flight.pendingDelete s.pending k ∧
    Flight.pendingGet (Flight.gosSettle cfg calcSize s k customTtl
      (Except.error e) now elapsed).pending k = none ∧
    (Flight.gosSettle cfg calcSize s k customTtl (Except.ok v : Except E T) now
      elapsed2).pending = Flight.pendingDelete s.pending k ∧
    Flight.pendingGet (Flight.gosSettle cfg calcSize s k customTtl
      (Except.ok v : Except E T) now elapsed2).pending k = none ∧
    (∀ (settled : Nat → Except E T) (fid : Nat) (view : Flight.GosView T),
      (view = Flight.GosView.started fid ∨
        view = Flight.GosView.joined fid) →
      settled fid = Except.error e →
      Flight.observeOutcome settled view = Except.error e) ∧
    (Flight.gosStart (Flight.gosSettle cfg calcSize s k customTtl
        (Except.error e) now elapsed) k now').1.supplierRuns =
      s.supplierRuns + 1 ∧
    (Flight.gosStart (Flight.gosSettle cfg calcSize s k customTtl
        (Except.error e) now elapsed) k now').2 =
      Flight.GosView.started s.nextFetchId := by
  have hget : Cache.get s.cacheSt k now' =
      ({ s.cacheSt with stats :=
          { s.cacheSt.stats with
              misses := s.cacheSt.stats.misses + 1 } }, none) := by
    simp only [Cache.get, hmiss]
  refine ⟨rfl, rfl, Flight.pendingGet_pendingDelete k, rfl,
    Flight.pendingGet_pendingDelete k, ?_, ?_, ?_⟩
  · intro settled fid view hview hfe
    rcases hview with rfl | rfl
    · simp only [Flight.observeOutcome, hfe]
    · simp only [Flight.observeOutcome, hfe]
  · simp only [Flight.gosSettle, Flight.gosStart,
      Flight.pendingGet_pendingDelete, hget]
  · simp only [Flight.gosSettle, Flight.gosStart,
      Flight.pendingGet_pendingDelete, hget]

/-- A flight state with one fetch in flight for keyA over an empty
cache. -/
def flightP : Flight.FlightState Nat :=
  { cacheSt := Cache.initState Nat, pending := [(keyA, 0)], nextFetchId := 1,
    supplierRuns := 1 }

def errE : String := "fetch failed"

/-- Witness for C9 at a concrete in-flight fetch that fails. -/
theorem claim_C9_failure_not_cached_witness :
    Cache.mapGet flightP.cacheSt.cache keyA = none ∧
    ((Flight.gosSettle cfgDefault czero flightP keyA none
        (Except.error errE) 5 0).cacheSt = flightP.cacheSt ∧
      (Flight.gosSettle cfgDefault czero flightP keyA none
        (Except.error errE) 5 0).pending =
          Flight.pendingDelete flightP.pending keyA ∧
      Flight.pendingGet (Flight.gosSettle cfgDefault czero flightP keyA none
        (Except.error errE) 5 0).pending keyA = none ∧
      (Flight.gosSettle cfgDefault czero flightP keyA none
        (Except.ok 7 : Except String Nat) 5 0).pending =
          Flight.pendingDelete flightP.pending keyA ∧
      Flight.pendingGet (Flight.gosSettle cfgDefault czero flightP keyA none
        (Except.ok 7 : Except String Nat) 5 0).pending keyA = none ∧
      (∀ (settled : Nat → Except String Nat) (fid : Nat)
          (view : Flight.GosView Nat),
        (view = Flight.GosView.started fid ∨
          view = Flight.GosView.joined fid) →
        settled fid = Except.error errE →
        Flight.observeOutcome settled view = Except.error errE) ∧
      (Flight.gosStart (Flight.gosSettle cfgDefault czero flightP keyA none
          (Except.error errE) 5 0) keyA 6).1.supplierRuns =
        flightP.supplierRuns + 1 ∧
      (Flight.gosStart (Flight.gosSettle cfgDefault czero flightP keyA none
          (Except.error errE) 5 0) keyA 6).2 =
        Flight.GosView.started flightP.nextFetchId) :=
  ⟨rfl, claim_C9_failure_not_cached cfgDefault czero flightP keyA none errE
    7 5 6 0 0 rfl⟩
